import Mathlib

/-!
Verification development for `models/bert_utils.py` of the bertax_training
repository.  The Python functions are shallowly embedded as executable Lean
definitions; Python dicts are modelled as insertion-ordered association lists
with the first occurrence of a key being authoritative (Python dicts have
unique keys, which the operations below preserve).  Randomness
(`random.randint`, `np.random.choice`) is modelled by passing the random draw
as an explicit argument reduced modulo the legal range.  External inputs that
the repository obtains from other modules (the k-mer list produced by
`seq2kmers`, the taxonomy lookup `TaxidLineage.get_ranks`, the model's
predictions and the metric functions used by `predict`) are taken as
parameters, so every theorem quantifies over all of their possible values.
-/

namespace Bertax

/-! ## Python dict model: insertion-ordered association lists -/

/-- `d.get(k, dflt)` — value of the first binding of `k`, or the default. -/
def dget {α : Type} (d : List (String × α)) (k : String) (dflt : α) : α :=
  match d with
  | [] => dflt
  | (k', v) :: rest => if k' = k then v else dget rest k dflt

/-- `d[k] = v` — replace the first binding of `k` in place, else append. -/
def dupdate {α : Type} (d : List (String × α)) (k : String) (v : α) :
    List (String × α) :=
  match d with
  | [] => [(k, v)]
  | (k', v') :: rest =>
    if k' = k then (k, v) :: rest else (k', v') :: dupdate rest k v

/-- `d.pop(k)` — remove the first binding of `k`. -/
def dpop {α : Type} (d : List (String × α)) (k : String) : List (String × α) :=
  match d with
  | [] => []
  | (k', v') :: rest => if k' = k then rest else (k', v') :: dpop rest k

/-- `k in d`. -/
def dmem {α : Type} (d : List (String × α)) (k : String) : Bool :=
  match d with
  | [] => false
  | (k', _) :: rest => k' = k || dmem rest k

/-- Sum of all values of a `Nat`-valued dict. -/
def sumVals (d : List (String × Nat)) : Nat :=
  (d.map Prod.snd).sum

/-- The keys of a dict are pairwise distinct (true of every Python dict). -/
def keysNodup {α : Type} (d : List (String × α)) : Prop :=
  (d.map Prod.fst).Nodup

/-! ## Python list slicing

`l[a:b]` for integer indices `a`, `b` (negative indices count from the end,
out-of-range indices are clamped). -/

/-- Normalize one slice bound the way CPython does. -/
def pySliceIdx (len : Nat) (i : Int) : Nat :=
  if i < 0 then ((len : Int) + i).toNat else min i.toNat len

/-- `l[a:b]`. -/
def pySlice {α : Type} (l : List α) (a b : Int) : List α :=
  (l.take (pySliceIdx l.length b)).drop (pySliceIdx l.length a)

/-! ## `seq2tokens` (bert_utils.py lines 71-98)

`seq2kmers` lives in `preprocessing/process_inputs.py`; its output (a list of
k-mer words) is taken here as the input `seq`, so all theorems below hold for
every possible raw sequence.  The token dictionary is a partial map
`String → Option Nat`; a `none` result of the embedding corresponds to a
Python `KeyError`/`ValueError`. -/

/-- `randint(0, max(len(seq) - seq_length - 1, 0))`: the random draw `rStart`
is reduced into the inclusive range. -/
def windowStart (seqLen seq_length rStart : Nat) : Nat :=
  rStart % ((max ((seqLen : Int) - (seq_length : Int) - 1) 0).toNat + 1)

/-- Lines 83-92: the slice `seq[start:end]` of the k-mer list that gets
encoded (`start = randint(...)`, `end = start + seq_length - 1` when
`window`, else `start = 0`, `end = seq_length`). -/
def encodedWindow (seq : List String) (seq_length : Nat) (window : Bool)
    (rStart : Nat) : List String :=
  if window then
    let s := windowStart seq.length seq_length rStart
    pySlice seq (s : Int) ((s : Int) + (seq_length : Int) - 1)
  else
    pySlice seq 0 (seq_length : Int)

/-- `token_dict[word] if word in token_dict else token_dict['[UNK]']`. -/
def lookupWord (td : String → Option Nat) (w : String) : Option Nat :=
  match td w with
  | some v => some v
  | none => td "[UNK]"

/-- The list comprehension of lines 89-92 (without the `[CLS]` prefix);
`none` when some lookup raises `KeyError`. -/
def mapLookup (td : String → Option Nat) : List String → Option (List Nat)
  | [] => some []
  | w :: ws =>
    match lookupWord td w with
    | none => none
    | some v => (mapLookup td ws).map (fun vs => v :: vs)

/-- Lines 93-96: pad `indices` with the pad token, or truncate, to
`max_length` entries. -/
def padTrunc (indices : List Nat) (max_length padTok : Nat) : List Nat :=
  if indices.length < max_length then
    indices ++ List.replicate (max_length - indices.length) padTok
  else
    indices.take max_length

/-- `np.random.choice(l)` with the random draw passed explicitly (only used
on non-empty `l`). -/
def pyChoice (l : List Nat) (r : Nat) : Nat :=
  l.getD (r % l.length) 0

/-- Body of `seq2tokens` after `seq_length` has been resolved. -/
def seq2tokensCore (td : String → Option Nat) (seq : List String)
    (seq_length max_length : Nat) (window : Bool) (rStart : Nat) :
    Option (List Nat × List Nat) :=
  let win := encodedWindow seq seq_length window rStart
  match td "[CLS]" with
  | none => none
  | some cls =>
    match mapLookup td win with
    | none => none
    | some body =>
      let indices := cls :: body
      let idx? : Option (List Nat) :=
        if indices.length < max_length then
          match td "" with
          | none => none
          | some padTok => some (padTrunc indices max_length padTok)
        else some (indices.take max_length)
      match idx? with
      | none => none
      | some idx => some (idx, List.replicate max_length 0)

/-- `seq2tokens` (lines 71-98).  `seq` is the k-mer list produced by
`seq2kmers`; `rStart` and `rChoice` are the random draws of `randint` and
`np.random.choice`. -/
def seq2tokens (td : String → Option Nat) (seq : List String)
    (seq_length : Nat) (max_length? : Option Nat)
    (seq_len_like : Option (List Nat)) (window : Bool)
    (rStart rChoice : Nat) : Option (List Nat × List Nat) :=
  let max_length := max_length?.getD seq_length
  match seq_len_like with
  | some [] => none
  | some (x :: xs) =>
    seq2tokensCore td seq (min max_length (pyChoice (x :: xs) rChoice))
      max_length window rStart
  | none => seq2tokensCore td seq seq_length max_length window rStart

/-- The `seq_length` actually used after the `seq_len_like` adjustment of
lines 79-80. -/
def effectiveSeqLen (seq_length max_length : Nat)
    (seq_len_like : Option (List Nat)) (rChoice : Nat) : Nat :=
  match seq_len_like with
  | none => seq_length
  | some l => min max_length (pyChoice l rChoice)

/-! ### Lemmas about `seq2tokens` -/

theorem mapLookup_eq_map (td : String → Option Nat) (unk : Nat)
    (hunk : td "[UNK]" = some unk) (ws : List String) :
    mapLookup td ws = some (ws.map (fun w => (td w).getD unk)) := by
  induction ws with
  | nil => rfl
  | cons w ws ih =>
    simp only [mapLookup, lookupWord, List.map_cons]
    cases h : td w with
    | some v => simp [ih]
    | none => simp [hunk, ih]

theorem padTrunc_length (l : List Nat) (m p : Nat) :
    (padTrunc l m p).length = m := by
  unfold padTrunc
  split
  · simp; omega
  · simp; omega

theorem padTrunc_head? (c : Nat) (l : List Nat) (m p : Nat) (hm : 1 ≤ m) :
    (padTrunc (c :: l) m p).head? = some c := by
  unfold padTrunc
  split
  · simp
  · rw [List.head?_take]
    simp
    omega

theorem seq2tokensCore_eq (td : String → Option Nat) (seq : List String)
    (seq_length max_length : Nat) (window : Bool) (rStart : Nat)
    (cls padTok : Nat) (body : List Nat)
    (hcls : td "[CLS]" = some cls) (hpad : td "" = some padTok)
    (hbody : mapLookup td (encodedWindow seq seq_length window rStart) =
      some body) :
    seq2tokensCore td seq seq_length max_length window rStart =
      some (padTrunc (cls :: body) max_length padTok,
            List.replicate max_length 0) := by
  simp only [seq2tokensCore, hcls, hbody, padTrunc]
  by_cases h : body.length + 1 < max_length
  · simp [h, hpad]
  · simp [h]

theorem seq2tokens_eq_core (td : String → Option Nat) (seq : List String)
    (seq_length : Nat) (max_length? : Option Nat)
    (seq_len_like : Option (List Nat)) (window : Bool) (rStart rChoice : Nat)
    (hsll : seq_len_like ≠ some []) :
    seq2tokens td seq seq_length max_length? seq_len_like window rStart
        rChoice =
      seq2tokensCore td seq
        (effectiveSeqLen seq_length (max_length?.getD seq_length)
          seq_len_like rChoice)
        (max_length?.getD seq_length) window rStart := by
  cases seq_len_like with
  | none => rfl
  | some l =>
    cases l with
    | nil => exact absurd rfl hsll
    | cons x xs => rfl

/-- A small concrete token dictionary used to instantiate theorems. -/
def sampleTd : String → Option Nat := fun w =>
  if w = "" then some 0
  else if w = "[UNK]" then some 1
  else if w = "[CLS]" then some 2
  else if w = "AAA" then some 5
  else none

/-- C1: for every input k-mer sequence, every token dictionary containing
`[CLS]`, `[UNK]` and `''`, and every parameter setting (with
`seq_len_like`, when given, non-empty — `np.random.choice` raises on an
empty array), `seq2tokens` returns a pair of arrays whose lengths both
equal `max_length` (defaulting to `seq_length` when `max_length` is
`None`): the token-index array is the `[CLS]`-prefixed encoded window,
padded with `token_dict['']` when shorter than `max_length` and truncated
to `max_length` when longer, and the segment array also has exactly
`max_length` entries. -/
theorem seq2tokens_fixed_length (td : String → Option Nat)
    (seq : List String) (seq_length : Nat) (max_length? : Option Nat)
    (seq_len_like : Option (List Nat)) (window : Bool) (rStart rChoice : Nat)
    (cls unk padTok : Nat)
    (hcls : td "[CLS]" = some cls) (hunk : td "[UNK]" = some unk)
    (hpad : td "" = some padTok) (hsll : seq_len_like ≠ some []) :
    ∃ idx segs,
      seq2tokens td seq seq_length max_length? seq_len_like window rStart
          rChoice = some (idx, segs) ∧
      idx.length = max_length?.getD seq_length ∧
      segs.length = max_length?.getD seq_length ∧
      idx = padTrunc
        (cls :: (encodedWindow seq
            (effectiveSeqLen seq_length (max_length?.getD seq_length)
              seq_len_like rChoice) window rStart).map
          (fun w => (td w).getD unk))
        (max_length?.getD seq_length) padTok ∧
      segs = List.replicate (max_length?.getD seq_length) 0 := by
  rw [seq2tokens_eq_core td seq seq_length max_length? seq_len_like window
    rStart rChoice hsll]
  rw [seq2tokensCore_eq td seq _ _ window rStart cls padTok _ hcls hpad
    (mapLookup_eq_map td unk hunk _)]
  exact ⟨_, _, rfl, padTrunc_length _ _ _, by simp, rfl, rfl⟩

theorem seq2tokens_fixed_length_witness :
    (sampleTd "[CLS]" = some 2 ∧ sampleTd "[UNK]" = some 1 ∧
      sampleTd "" = some 0 ∧ (none : Option (List Nat)) ≠ some []) ∧
    ∃ idx segs,
      seq2tokens sampleTd ["AAA", "XXX", "AAA"] 5 none none true 0 0 =
        some (idx, segs) ∧
      idx.length = (none : Option Nat).getD 5 ∧
      segs.length = (none : Option Nat).getD 5 ∧
      idx = padTrunc
        (2 :: (encodedWindow ["AAA", "XXX", "AAA"]
            (effectiveSeqLen 5 ((none : Option Nat).getD 5) none 0) true
            0).map (fun w => (sampleTd w).getD 1))
        ((none : Option Nat).getD 5) 0 ∧
      segs = List.replicate ((none : Option Nat).getD 5) 0 :=
  ⟨⟨by decide, by decide, by decide, by decide⟩,
    seq2tokens_fixed_length sampleTd ["AAA", "XXX", "AAA"] 5 none none true
      0 0 2 1 0 (by decide) (by decide) (by decide) (by decide)⟩

/-- C3: every word of the encoded window is mapped to `token_dict[word]`
when present and to `token_dict['[UNK]']` otherwise, so encoding never
fails on a word absent from the vocabulary: with the three special keys
present, `seq2tokens` always returns `some` result whose index body is
`map (fun w => (td w).getD unk)` over the window. -/
theorem seq2tokens_unknown_fallback (td : String → Option Nat)
    (seq : List String) (seq_length : Nat) (max_length? : Option Nat)
    (seq_len_like : Option (List Nat)) (window : Bool) (rStart rChoice : Nat)
    (cls unk padTok : Nat)
    (hcls : td "[CLS]" = some cls) (hunk : td "[UNK]" = some unk)
    (hpad : td "" = some padTok) (hsll : seq_len_like ≠ some []) :
    (∀ w v, td w = some v → lookupWord td w = some v) ∧
    (∀ w, td w = none → lookupWord td w = some unk) ∧
    ∃ idx segs,
      seq2tokens td seq seq_length max_length? seq_len_like window rStart
          rChoice = some (idx, segs) ∧
      idx = padTrunc
        (cls :: (encodedWindow seq
            (effectiveSeqLen seq_length (max_length?.getD seq_length)
              seq_len_like rChoice) window rStart).map
          (fun w => (td w).getD unk))
        (max_length?.getD seq_length) padTok := by
  refine ⟨fun w v h => by simp [lookupWord, h],
    fun w h => by simp [lookupWord, h, hunk], ?_⟩
  obtain ⟨idx, segs, h1, _, _, h4, _⟩ :=
    seq2tokens_fixed_length td seq seq_length max_length? seq_len_like
      window rStart rChoice cls unk padTok hcls hunk hpad hsll
  exact ⟨idx, segs, h1, h4⟩

theorem seq2tokens_unknown_fallback_witness :
    (sampleTd "[CLS]" = some 2 ∧ sampleTd "[UNK]" = some 1 ∧
      sampleTd "" = some 0 ∧ (none : Option (List Nat)) ≠ some []) ∧
    ((∀ w v, sampleTd w = some v → lookupWord sampleTd w = some v) ∧
    (∀ w, sampleTd w = none → lookupWord sampleTd w = some 1) ∧
    ∃ idx segs,
      seq2tokens sampleTd ["AAA", "XXX"] 3 (some 4) none false 0 0 =
        some (idx, segs) ∧
      idx = padTrunc
        (2 :: (encodedWindow ["AAA", "XXX"]
            (effectiveSeqLen 3 ((some 4 : Option Nat).getD 3) none 0) false
            0).map (fun w => (sampleTd w).getD 1))
        ((some 4 : Option Nat).getD 3) 0) :=
  ⟨⟨by decide, by decide, by decide, by decide⟩,
    seq2tokens_unknown_fallback sampleTd ["AAA", "XXX"] 3 (some 4) none
      false 0 0 2 1 0 (by decide) (by decide) (by decide) (by decide)⟩

/-- C10: with an effective `max_length ≥ 1`, the first entry of the
returned token-index array is `token_dict['[CLS]']` and the segment array
consists entirely of zeros. -/
theorem seq2tokens_cls_and_zero_segments (td : String → Option Nat)
    (seq : List String) (seq_length : Nat) (max_length? : Option Nat)
    (seq_len_like : Option (List Nat)) (window : Bool) (rStart rChoice : Nat)
    (cls unk padTok : Nat)
    (hcls : td "[CLS]" = some cls) (hunk : td "[UNK]" = some unk)
    (hpad : td "" = some padTok) (hsll : seq_len_like ≠ some [])
    (hml : 1 ≤ max_length?.getD seq_length) :
    ∃ idx segs,
      seq2tokens td seq seq_length max_length? seq_len_like window rStart
          rChoice = some (idx, segs) ∧
      idx.head? = some cls ∧
      segs = List.replicate (max_length?.getD seq_length) 0 ∧
      ∀ x ∈ segs, x = 0 := by
  obtain ⟨idx, segs, h1, _, _, h4, h5⟩ :=
    seq2tokens_fixed_length td seq seq_length max_length? seq_len_like
      window rStart rChoice cls unk padTok hcls hunk hpad hsll
  refine ⟨idx, segs, h1, ?_, h5, ?_⟩
  · rw [h4]
    exact padTrunc_head? cls _ _ _ hml
  · intro x hx
    rw [h5] at hx
    exact List.eq_of_mem_replicate hx

theorem seq2tokens_cls_and_zero_segments_witness :
    (sampleTd "[CLS]" = some 2 ∧ sampleTd "[UNK]" = some 1 ∧
      sampleTd "" = some 0 ∧ (none : Option (List Nat)) ≠ some [] ∧
      1 ≤ (none : Option Nat).getD 5) ∧
    ∃ idx segs,
      seq2tokens sampleTd ["AAA", "XXX", "AAA"] 5 none none false 3 0 =
        some (idx, segs) ∧
      idx.head? = some 2 ∧
      segs = List.replicate ((none : Option Nat).getD 5) 0 ∧
      ∀ x ∈ segs, x = 0 :=
  ⟨⟨by decide, by decide, by decide, by decide, by decide⟩,
    seq2tokens_cls_and_zero_segments sampleTd ["AAA", "XXX", "AAA"] 5 none
      none false 3 0 2 1 0 (by decide) (by decide) (by decide) (by decide)
      (by decide)⟩

theorem encodedWindow_true_eq (seq : List String) (seq_length rStart : Nat)
    (hsl : 1 ≤ seq_length) :
    encodedWindow seq seq_length true rStart =
      (seq.drop (windowStart seq.length seq_length rStart)).take
        (seq_length - 1) := by
  have hs : windowStart seq.length seq_length rStart ≤
      (max ((seq.length : Int) - (seq_length : Int) - 1) 0).toNat :=
    Nat.lt_succ_iff.mp (Nat.mod_lt _ (Nat.succ_pos _))
  have hslen : windowStart seq.length seq_length rStart ≤ seq.length := by
    omega
  set s := windowStart seq.length seq_length rStart with hsdef
  simp only [encodedWindow, if_true, ← hsdef]
  unfold pySlice
  have h1 : pySliceIdx seq.length ((s : Int) + (seq_length : Int) - 1) =
      min (s + (seq_length - 1)) seq.length := by
    unfold pySliceIdx
    rw [if_neg (by omega)]
    congr 1
    omega
  have h2 : pySliceIdx seq.length (s : Int) = s := by
    unfold pySliceIdx
    rw [if_neg (by omega)]
    simp
    omega
  rw [h1, h2, List.drop_take]
  apply List.take_eq_take.mpr
  simp only [List.length_drop]
  omega

theorem encodedWindow_false_eq (seq : List String) (seq_length rStart : Nat) :
    encodedWindow seq seq_length false rStart = seq.take seq_length := by
  simp only [encodedWindow, Bool.false_eq_true, if_false]
  unfold pySlice
  have h1 : pySliceIdx seq.length ((seq_length : Nat) : Int) =
      min seq_length seq.length := by
    unfold pySliceIdx
    rw [if_neg (by omega)]
    simp
  have h2 : pySliceIdx seq.length 0 = 0 := by
    unfold pySliceIdx
    rw [if_neg (by omega)]
    simp
  rw [h1, h2, List.drop_zero]
  apply List.take_eq_take.mpr
  omega

/-- C2 counterexample: for a 10-word k-mer sequence and `seq_length = 5`
(no bounds clamping involved), the encoded window holds 4 words in window
mode but 5 words in non-window mode, so the window is not "exactly
`seq_length` tokens" and the two modes do not use the same window
length. -/
theorem encodedWindow_length_counterexample :
    (encodedWindow ["a", "b", "c", "d", "e", "f", "g", "h", "i", "j"] 5
      true 0).length = 4 ∧
    (encodedWindow ["a", "b", "c", "d", "e", "f", "g", "h", "i", "j"] 5
      false 0).length = 5 ∧
    ¬ (encodedWindow ["a", "b", "c", "d", "e", "f", "g", "h", "i", "j"] 5
      true 0).length = 5 := by
  decide

/-- C2 amended: for `seq_length ≥ 1` the encoded portion is a contiguous
window starting at the randomized position
`randint(0, max(len(seq) - seq_length - 1, 0))` when `window=True` and at
0 when `window=False`; it holds exactly `seq_length - 1` tokens in window
mode and exactly `seq_length` tokens in non-window mode (clamped at the
sequence bounds when the sequence is shorter), so the window-mode window
is one token shorter than the non-window one. -/
theorem encodedWindow_spec (seq : List String) (seq_length rStart : Nat)
    (hsl : 1 ≤ seq_length) :
    encodedWindow seq seq_length true rStart =
      (seq.drop (windowStart seq.length seq_length rStart)).take
        (seq_length - 1) ∧
    (encodedWindow seq seq_length true rStart).length =
      min (seq_length - 1)
        (seq.length - windowStart seq.length seq_length rStart) ∧
    encodedWindow seq seq_length false rStart = seq.take seq_length ∧
    (encodedWindow seq seq_length false rStart).length =
      min seq_length seq.length ∧
    windowStart seq.length seq_length rStart ≤
      (max ((seq.length : Int) - (seq_length : Int) - 1) 0).toNat := by
  refine ⟨encodedWindow_true_eq seq seq_length rStart hsl, ?_,
    encodedWindow_false_eq seq seq_length rStart, ?_,
    Nat.lt_succ_iff.mp (Nat.mod_lt _ (Nat.succ_pos _))⟩
  · rw [encodedWindow_true_eq seq seq_length rStart hsl]
    simp [List.length_take, List.length_drop]
  · rw [encodedWindow_false_eq seq seq_length rStart]
    simp [List.length_take]

theorem encodedWindow_spec_witness :
    1 ≤ 5 ∧
    (encodedWindow ["a", "b", "c", "d", "e", "f", "g", "h", "i", "j"] 5
        true 7 =
      (["a", "b", "c", "d", "e", "f", "g", "h", "i", "j"].drop
        (windowStart
          ["a", "b", "c", "d", "e", "f", "g", "h", "i", "j"].length 5
          7)).take (5 - 1) ∧
    (encodedWindow ["a", "b", "c", "d", "e", "f", "g", "h", "i", "j"] 5
        true 7).length =
      min (5 - 1)
        (["a", "b", "c", "d", "e", "f", "g", "h", "i", "j"].length -
          windowStart
            ["a", "b", "c", "d", "e", "f", "g", "h", "i", "j"].length 5
            7) ∧
    encodedWindow ["a", "b", "c", "d", "e", "f", "g", "h", "i", "j"] 5
        false 7 =
      ["a", "b", "c", "d", "e", "f", "g", "h", "i", "j"].take 5 ∧
    (encodedWindow ["a", "b", "c", "d", "e", "f", "g", "h", "i", "j"] 5
        false 7).length =
      min 5 ["a", "b", "c", "d", "e", "f", "g", "h", "i", "j"].length ∧
    windowStart ["a", "b", "c", "d", "e", "f", "g", "h", "i", "j"].length
        5 7 ≤
      (max
        ((["a", "b", "c", "d", "e", "f", "g", "h", "i", "j"].length : Int) -
          (5 : Int) - 1) 0).toNat) :=
  ⟨by decide,
    encodedWindow_spec ["a", "b", "c", "d", "e", "f", "g", "h", "i", "j"] 5
      7 (by decide)⟩

/-! ## `get_token_dict` (bert_utils.py lines 16-21) -/

/-- `itertools.product(alph, repeat=k)`: all `k`-tuples over `alph` in
lexicographic enumeration order (leftmost position outermost). -/
def productRepeat (alph : List Char) : Nat → List (List Char)
  | 0 => [[]]
  | k + 1 =>
    alph.flatMap (fun c => (productRepeat alph k).map (fun w => c :: w))

/-- `keras_bert.get_base_dict()`: the five special tokens with indices
0-4 (third-party constant, reproduced concretely). -/
def get_base_dict : List (String × Nat) :=
  [("", 0), ("[UNK]", 1), ("[CLS]", 2), ("[SEP]", 3), ("[MASK]", 4)]

/-- The joined words `[''.join(_) for _ in product(alph, repeat=k)]`. -/
def tokenWords (alph : List Char) (k : Nat) : List String :=
  (productRepeat alph k).map (fun w => String.mk w)

/-- `get_token_dict` (lines 16-21): starting from the base dict, each word
is assigned `len(token_dict)` at the moment of its insertion. -/
def get_token_dict (alph : List Char) (k : Nat) : List (String × Nat) :=
  (tokenWords alph k).foldl (fun d w => dupdate d w d.length) get_base_dict

/-- The entries appended for a run of fresh words starting at a given
index. -/
def freshEntries (startIdx : Nat) : List String → List (String × Nat)
  | [] => []
  | w :: ws => (w, startIdx) :: freshEntries (startIdx + 1) ws

theorem dmem_append {α : Type} (d e : List (String × α)) (k : String) :
    dmem (d ++ e) k = (dmem d k || dmem e k) := by
  induction d with
  | nil => simp [dmem]
  | cons kv rest ih => simp [dmem, ih, Bool.or_assoc]

theorem dupdate_append_of_not_mem {α : Type} (d : List (String × α))
    (k : String) (v : α) (h : dmem d k = false) :
    dupdate d k v = d ++ [(k, v)] := by
  induction d with
  | nil => rfl
  | cons kv rest ih =>
    obtain ⟨k', v'⟩ := kv
    simp only [dmem, Bool.or_eq_false_iff] at h
    obtain ⟨h1, h2⟩ := h
    simp only [decide_eq_false_iff_not] at h1
    simp [dupdate, h1, ih h2]

theorem foldl_insert_fresh (ws : List String) :
    ∀ d : List (String × Nat), ws.Nodup →
      (∀ w ∈ ws, dmem d w = false) →
      ws.foldl (fun d w => dupdate d w d.length) d =
        d ++ freshEntries d.length ws := by
  induction ws with
  | nil => intro d _ _; simp [freshEntries]
  | cons w ws ih =>
    intro d hnd hmem
    simp only [List.foldl_cons]
    rw [dupdate_append_of_not_mem d w d.length (hmem w (by simp))]
    rw [ih (d ++ [(w, d.length)]) (List.Nodup.of_cons hnd) ?_]
    · simp only [List.length_append, List.length_singleton, freshEntries,
        List.append_assoc, List.singleton_append]
    · intro w' hw'
      have hne : ¬ w = w' := by
        intro h
        exact (List.nodup_cons.mp hnd).1 (h ▸ hw')
      rw [dmem_append]
      simp [dmem, hmem w' (List.mem_cons_of_mem _ hw'), hne]

theorem dmem_freshEntries_of_mem (ws : List String) :
    ∀ (n : Nat) (w : String), w ∈ ws → dmem (freshEntries n ws) w = true := by
  induction ws with
  | nil => intro n w hw; simp at hw
  | cons w' ws ih =>
    intro n w hw
    simp only [freshEntries, dmem]
    rcases List.mem_cons.mp hw with h | h
    · simp [h]
    · simp [ih (n + 1) w h]

theorem freshEntries_map_snd (ws : List String) :
    ∀ n : Nat, (freshEntries n ws).map Prod.snd = List.range' n ws.length := by
  induction ws with
  | nil => intro n; simp [freshEntries]
  | cons w ws ih => intro n; simp [freshEntries, ih, List.range'_succ]

/-- C5 counterexample: for the alphabet string `"AAC"` (a legal argument —
`get_token_dict` accepts any iterable of letters) and `k = 1`, the word
`'A'` is enumerated twice; the second visit re-assigns it
`len(token_dict) = 6` without growing the dict, and `'C'` then also
receives index 6, so the indices of the resulting dictionary are not all
distinct. -/
theorem get_token_dict_counterexample :
    dget (get_token_dict ['A', 'A', 'C'] 1) "A" 0 = 6 ∧
    dget (get_token_dict ['A', 'A', 'C'] 1) "C" 0 = 6 ∧
    ¬ ((get_token_dict ['A', 'A', 'C'] 1).map Prod.snd).Nodup := by
  decide

/-- C5 amended: whenever the enumerated length-`k` words are pairwise
distinct and none of them collides with a key of the keras_bert base
dictionary (true e.g. for any duplicate-free alphabet and `k` such that no
word equals a special token), `get_token_dict` returns the base dictionary
extended with every length-`k` word over `alph`, in enumeration order,
each assigned the index equal to the dictionary's size at the moment of
its insertion, and all indices are distinct;  the enumeration is a pure
function of `alph` and `k`, hence deterministic. -/
theorem get_token_dict_spec (alph : List Char) (k : Nat)
    (h1 : (tokenWords alph k).Nodup)
    (h2 : ∀ w ∈ tokenWords alph k, dmem get_base_dict w = false) :
    get_token_dict alph k =
      get_base_dict ++ freshEntries get_base_dict.length
        (tokenWords alph k) ∧
    ((get_token_dict alph k).map Prod.snd).Nodup ∧
    ∀ w ∈ tokenWords alph k, dmem (get_token_dict alph k) w = true := by
  have heq : get_token_dict alph k =
      get_base_dict ++ freshEntries get_base_dict.length
        (tokenWords alph k) :=
    foldl_insert_fresh (tokenWords alph k) get_base_dict h1 h2
  refine ⟨heq, ?_, ?_⟩
  · rw [heq]
    rw [List.map_append, freshEntries_map_snd]
    rw [List.nodup_append]
    refine ⟨by decide, List.nodup_range' _ _, ?_⟩
    intro v hv hv'
    rw [List.mem_range'_1] at hv'
    have hv5 : v < 5 := by
      simp only [get_base_dict, List.map_cons, List.map_nil,
        List.mem_cons, List.not_mem_nil, or_false] at hv
      rcases hv with h | h | h | h | h <;> omega
    have hlen : get_base_dict.length = 5 := by decide
    omega
  · intro w hw
    rw [heq, dmem_append, dmem_freshEntries_of_mem _ _ w hw]
    simp

theorem get_token_dict_spec_witness :
    ((tokenWords ['A', 'C'] 1).Nodup ∧
      ∀ w ∈ tokenWords ['A', 'C'] 1, dmem get_base_dict w = false) ∧
    (get_token_dict ['A', 'C'] 1 =
      get_base_dict ++ freshEntries get_base_dict.length
        (tokenWords ['A', 'C'] 1) ∧
    ((get_token_dict ['A', 'C'] 1).map Prod.snd).Nodup ∧
    ∀ w ∈ tokenWords ['A', 'C'] 1,
      dmem (get_token_dict ['A', 'C'] 1) w = true) :=
  ⟨⟨by decide, by decide⟩,
    get_token_dict_spec ['A', 'C'] 1 (by decide) (by decide)⟩

/-! ## `generate_bert_with_pretrained_multi_tax` (bert_utils.py lines 47-68)

The keras layer graph built on top of the pretrained trunk is embedded as
a symbolic expression tree; `Layer.input` stands for the `NSP-Dense`
output of the loaded checkpoint (an external artifact), with its width as
a parameter. -/

/-- A symbolic keras tensor: the trunk output, a dense(softmax) layer
applied to an input tensor, or a concatenation. -/
inductive Layer where
  | input (width : Nat)
  | dense (units : Nat) (inp : Layer) (name : String)
  | concat2 (a b : Layer)
  | concat3 (a b c : Layer)
  deriving DecidableEq, Repr

/-- Output width of a symbolic tensor (softmax dense has `units` outputs,
concatenation sums the widths). -/
def Layer.width : Layer → Nat
  | .input w => w
  | .dense u _ _ => u
  | .concat2 a b => a.width + b.width
  | .concat3 a b c => a.width + b.width + c.width

/-- The input tensor of a dense layer. -/
def Layer.denseInput : Layer → Option Layer
  | .dense _ i _ => some i
  | _ => none

/-- Whether a tensor is a concatenation. -/
def Layer.isConcat : Layer → Bool
  | .concat2 _ _ => true
  | .concat3 _ _ _ => true
  | _ => false

/-- The three parts of the final 3-way concatenation. -/
def Layer.parts3 : Layer → Option (Layer × Layer × Layer)
  | .concat3 a b c => some (a, b, c)
  | _ => none

/-- Lines 56-67: the three-head hierarchical model.  `trunkWidth` is the
width of the pretrained `NSP-Dense` output; the returned tensor is the
model's single output layer. -/
def generate_bert_with_pretrained_multi_tax (trunkWidth : Nat)
    (nr_classes : Nat × Nat × Nat) : Layer :=
  let nsp_dense_layer := Layer.input trunkWidth
  let superkingdoms_out :=
    Layer.dense nr_classes.1 nsp_dense_layer "superkingdoms_softmax"
  let families_in := Layer.concat2 nsp_dense_layer superkingdoms_out
  let families_out :=
    Layer.dense nr_classes.2.1 families_in "families_softmax"
  let species_in := Layer.concat2 nsp_dense_layer families_out
  let species_out := Layer.dense nr_classes.2.2 species_in "species_softmax"
  Layer.concat3 superkingdoms_out families_out species_out

/-- C6 counterexample: with trunk width 8 and `nr_classes = (4, 30, 100)`,
the first (superkingdom) head's dense layer takes the bare trunk output as
its input — it is `Layer.input 8`, not a concatenation of the trunk with
any previous prediction. -/
theorem generate_multi_tax_counterexample :
    ((generate_bert_with_pretrained_multi_tax 8 (4, 30, 100)).parts3.bind
      (fun p => p.1.denseInput)) = some (Layer.input 8) ∧
    ((generate_bert_with_pretrained_multi_tax 8 (4, 30, 100)).parts3.bind
      (fun p => p.1.denseInput)).map Layer.isConcat = some false := by
  exact ⟨rfl, rfl⟩

/-- C6 amended: the model builds exactly three dense+softmax heads; the
first rank's input is the shared `NSP-Dense` trunk output alone, while
each of the two subsequent ranks' inputs is the concatenation of the
trunk output with the previous rank's softmax prediction; the model's
single output is the concatenation of the three softmax outputs, of total
width equal to the sum of `nr_classes`. -/
theorem generate_multi_tax_spec (trunkWidth : Nat)
    (nr_classes : Nat × Nat × Nat) :
    (generate_bert_with_pretrained_multi_tax trunkWidth nr_classes).parts3 =
      some
        (Layer.dense nr_classes.1 (Layer.input trunkWidth)
          "superkingdoms_softmax",
        Layer.dense nr_classes.2.1
          (Layer.concat2 (Layer.input trunkWidth)
            (Layer.dense nr_classes.1 (Layer.input trunkWidth)
              "superkingdoms_softmax")) "families_softmax",
        Layer.dense nr_classes.2.2
          (Layer.concat2 (Layer.input trunkWidth)
            (Layer.dense nr_classes.2.1
              (Layer.concat2 (Layer.input trunkWidth)
                (Layer.dense nr_classes.1 (Layer.input trunkWidth)
                  "superkingdoms_softmax")) "families_softmax"))
          "species_softmax") ∧
    (generate_bert_with_pretrained_multi_tax trunkWidth nr_classes).width =
      nr_classes.1 + nr_classes.2.1 + nr_classes.2.2 := by
  exact ⟨rfl, rfl⟩

/-! ## `predict` (bert_utils.py lines 110-133)

`model.predict`, the generator's targets and the three metric functions
are external; they enter as parameters `preds`, `targets`, `accuracy`,
`loss`, `compute_roc`.  `model._is_compiled` is the flag `isCompiled`.
Only the part of the returned dict the claims speak about (`metrics`,
`metrics_names`, `data`) is modelled. -/

def predict {α β : Type} (preds targets : List α)
    (isCompiled roc_auc return_data : Bool)
    (accuracy loss compute_roc : List α → List α → β) :
    List β × List String × Option (List α × List α) :=
  let y := targets.take preds.length
  if 0 < y.length then
    let result := [accuracy y preds]
    let metrics_names := ["test_accuracy"]
    let step1 :=
      if isCompiled then (result ++ [loss y preds],
        metrics_names ++ ["test_loss"])
      else (result, metrics_names)
    let step2 :=
      if roc_auc then (step1.1 ++ [compute_roc y preds],
        step1.2 ++ ["roc_auc"])
      else step1
    (step2.1, step2.2, if return_data then some (y, preds) else none)
  else ([], [], if return_data then some (y, preds) else none)

/-- C7: `metrics` and `metrics_names` are parallel lists of equal length;
with at least one target available they hold test accuracy, then test
loss exactly when the model is compiled, then ROC-AUC exactly when the
`roc_auc` flag is set, in that order; with no targets both are empty. -/
theorem predict_metrics_spec {α β : Type} (preds targets : List α)
    (isCompiled roc_auc return_data : Bool)
    (accuracy loss compute_roc : List α → List α → β) :
    (predict preds targets isCompiled roc_auc return_data accuracy loss
        compute_roc).1 =
      (if 0 < (targets.take preds.length).length then
        [accuracy (targets.take preds.length) preds] ++
          (if isCompiled then [loss (targets.take preds.length) preds]
            else []) ++
          (if roc_auc then [compute_roc (targets.take preds.length) preds]
            else [])
      else []) ∧
    (predict preds targets isCompiled roc_auc return_data accuracy loss
        compute_roc).2.1 =
      (if 0 < (targets.take preds.length).length then
        ["test_accuracy"] ++ (if isCompiled then ["test_loss"] else []) ++
          (if roc_auc then ["roc_auc"] else [])
      else []) ∧
    (predict preds targets isCompiled roc_auc return_data accuracy loss
        compute_roc).1.length =
      (predict preds targets isCompiled roc_auc return_data accuracy loss
        compute_roc).2.1.length := by
  unfold predict
  by_cases hy : 0 < preds.length ∧ 0 < targets.length <;>
    by_cases hc : isCompiled <;> by_cases hr : roc_auc <;>
    simp [hy, hc, hr]

/-! ## `get_classes_and_weights_multi_tax` (bert_utils.py lines 135-177)

`TaxidLineage.get_ranks` (from `utils/tax_entry.py`) is the external
taxonomy lookup; it enters as the parameter `lineage`, mapping a taxid to
its (superkingdom, kingdom, family) rank names, so every theorem
quantifies over all possible lookups.  Weights (`num_entries/value`,
Python float division of non-negative ints) are modelled exactly in `ℚ`. -/

/-- One tallying step: `dict[key] = dict.get(key, 0) + 1`. -/
def tallyStep (d : List (String × Nat)) (k : String) : List (String × Nat) :=
  dupdate d k (dget d k 0 + 1)

/-- Lines 146-154: the single pass over `species_list` tallying the three
rank dicts. -/
def tallyLoop (lineage : Nat → String × String × String) (l : List Nat) :
    List (String × Nat) × List (String × Nat) × List (String × Nat) :=
  l.foldl
    (fun acc t =>
      (tallyStep acc.1 (lineage t).1, tallyStep acc.2.1 (lineage t).2.1,
        tallyStep acc.2.2 (lineage t).2.2))
    ([], [], [])

/-- Tallying a plain list of names (used to reason about each component of
`tallyLoop` separately). -/
def tallyList (names : List String) : List (String × Nat) :=
  names.foldl tallyStep []

/-- Lines 161-167: the loop over `dict_.items()`, threading the copy
`classes_tax_i` (`ct`), the `unknown` accumulator and
`weight_classes_tax_i` (`wt`). -/
def processLoop (thr n : Nat) :
    List (String × Nat) → List (String × Nat) → Nat → List (String × ℚ) →
      List (String × Nat) × Nat × List (String × ℚ)
  | [], ct, unk, wt => (ct, unk, wt)
  | (k, v) :: items, ct, unk, wt =>
    if v < thr then processLoop thr n items (dpop ct k) (unk + v) wt
    else processLoop thr n items ct unk
      (dupdate wt k ((n : ℚ) / (v : ℚ)))

/-- Lines 157-175 for one rank dict `d`: drop the below-threshold classes
into the `unknown` bucket (also absorbing a retained class literally
named `unknown`, line 169) and attach the `unknown` weight
(`num_entries/unknown`, or 1 when the bucket is empty). -/
def processRank (thr n : Nat) (d : List (String × Nat)) :
    List (String × Nat) × List (String × ℚ) :=
  let r := processLoop thr n d d 0 []
  let unknown := r.2.1 + dget r.1 "unknown" 0
  let w : ℚ := if unknown ≠ 0 then (n : ℚ) / (unknown : ℚ) else 1
  (dupdate r.1 "unknown" unknown, dupdate r.2.2 "unknown" w)

/-- `get_classes_and_weights_multi_tax` (lines 135-177): returns the
`classes` and `weight_classes` dicts keyed by the three rank names. -/
def get_classes_and_weights_multi_tax
    (lineage : Nat → String × String × String) (species_list : List Nat)
    (unknown_thr : Nat) :
    List (String × List (String × Nat)) ×
      List (String × List (String × ℚ)) :=
  let num_entries := species_list.length
  let t := tallyLoop lineage species_list
  let sk := processRank unknown_thr num_entries t.1
  let ki := processRank unknown_thr num_entries t.2.1
  let fa := processRank unknown_thr num_entries t.2.2
  ([("superkingdom", sk.1), ("kingdom", ki.1), ("family", fa.1)],
   [("superkingdom", sk.2), ("kingdom", ki.2), ("family", fa.2)])

/-- Projection of the rank names used per taxonomic level. -/
def rankProj : Fin 3 → String × String × String → String
  | 0 => fun r => r.1
  | 1 => fun r => r.2.1
  | 2 => fun r => r.2.2

/-- The dict key used for each taxonomic level. -/
def rankName : Fin 3 → String
  | 0 => "superkingdom"
  | 1 => "kingdom"
  | 2 => "family"

/-! ### Basic dict lemmas -/

theorem dget_dupdate_self {α : Type} (d : List (String × α)) (k : String)
    (v : α) (dflt : α) : dget (dupdate d k v) k dflt = v := by
  induction d with
  | nil => simp [dget, dupdate]
  | cons kv rest ih =>
    obtain ⟨k', v'⟩ := kv
    by_cases h : k' = k <;> simp [dget, dupdate, h, ih]

theorem dget_dupdate_ne {α : Type} (d : List (String × α)) (k k' : String)
    (v : α) (dflt : α) (h : k' ≠ k) :
    dget (dupdate d k v) k' dflt = dget d k' dflt := by
  induction d with
  | nil => simp [dget, dupdate, Ne.symm h]
  | cons kv rest ih =>
    obtain ⟨k'', v''⟩ := kv
    by_cases h2 : k'' = k <;> by_cases h3 : k'' = k' <;>
      simp_all [dget, dupdate]

theorem dmem_dupdate_self {α : Type} (d : List (String × α)) (k : String)
    (v : α) : dmem (dupdate d k v) k = true := by
  induction d with
  | nil => simp [dmem, dupdate]
  | cons kv rest ih =>
    obtain ⟨k', v'⟩ := kv
    by_cases h : k' = k <;> simp [dmem, dupdate, h, ih]

theorem dmem_dupdate_ne {α : Type} (d : List (String × α)) (k k' : String)
    (v : α) (h : k' ≠ k) : dmem (dupdate d k v) k' = dmem d k' := by
  induction d with
  | nil => simp [dmem, dupdate, Ne.symm h]
  | cons kv rest ih =>
    obtain ⟨k'', v''⟩ := kv
    by_cases h2 : k'' = k <;> by_cases h3 : k'' = k' <;>
      simp_all [dmem, dupdate]

theorem dget_dpop_ne {α : Type} (d : List (String × α)) (k k' : String)
    (dflt : α) (h : k' ≠ k) :
    dget (dpop d k) k' dflt = dget d k' dflt := by
  induction d with
  | nil => simp [dget, dpop]
  | cons kv rest ih =>
    obtain ⟨k'', v''⟩ := kv
    by_cases h2 : k'' = k <;> by_cases h3 : k'' = k' <;>
      simp_all [dget, dpop]

theorem dmem_dpop_ne {α : Type} (d : List (String × α)) (k k' : String)
    (h : k' ≠ k) : dmem (dpop d k) k' = dmem d k' := by
  induction d with
  | nil => simp [dmem, dpop]
  | cons kv rest ih =>
    obtain ⟨k'', v''⟩ := kv
    by_cases h2 : k'' = k <;> by_cases h3 : k'' = k' <;>
      simp_all [dmem, dpop]

theorem dmem_dpop_of_not_mem {α : Type} (d : List (String × α))
    (k k' : String) (h : dmem d k' = false) :
    dmem (dpop d k) k' = false := by
  induction d with
  | nil => simp [dmem, dpop]
  | cons kv rest ih =>
    obtain ⟨k'', v''⟩ := kv
    simp only [dmem, Bool.or_eq_false_iff] at h
    by_cases h2 : k'' = k
    · simp [dpop, h2, h.2]
    · simp [dmem, dpop, h2, h.1, ih h.2]

theorem dmem_iff_mem_keys {α : Type} (d : List (String × α)) (k : String) :
    dmem d k = true ↔ k ∈ d.map Prod.fst := by
  induction d with
  | nil => simp [dmem]
  | cons kv rest ih =>
    obtain ⟨k', v'⟩ := kv
    simp only [dmem, Bool.or_eq_true, decide_eq_true_eq, List.map_cons,
      List.mem_cons, ih]
    constructor
    · rintro (h | h)
      · exact Or.inl h.symm
      · exact Or.inr h
    · rintro (h | h)
      · exact Or.inl h.symm
      · exact Or.inr h

theorem map_fst_dupdate {α : Type} (d : List (String × α)) (k : String)
    (v : α) :
    (dupdate d k v).map Prod.fst =
      if dmem d k then d.map Prod.fst else d.map Prod.fst ++ [k] := by
  induction d with
  | nil => simp [dupdate, dmem]
  | cons kv rest ih =>
    obtain ⟨k', v'⟩ := kv
    by_cases h : k' = k
    · subst h
      simp [dupdate, dmem]
    · simp only [dupdate, if_neg h, List.map_cons, ih, dmem]
      by_cases h2 : dmem rest k = true <;> simp [h, h2]

theorem map_fst_dpop {α : Type} (d : List (String × α)) (k : String) :
    (dpop d k).map Prod.fst = (d.map Prod.fst).erase k := by
  induction d with
  | nil => simp [dpop]
  | cons kv rest ih =>
    obtain ⟨k', v'⟩ := kv
    by_cases h : k' = k
    · subst h
      simp [dpop, List.erase_cons_head]
    · rw [List.map_cons, List.erase_cons_tail]
      · simp [dpop, h, ih]
      · simp [h]

theorem keysNodup_dupdate {α : Type} (d : List (String × α)) (k : String)
    (v : α) (hnd : keysNodup d) : keysNodup (dupdate d k v) := by
  unfold keysNodup
  rw [map_fst_dupdate]
  by_cases h : dmem d k = true
  · simpa [h] using hnd
  · rw [if_neg (by simp [h])]
    rw [List.nodup_append]
    refine ⟨hnd, List.nodup_singleton k, ?_⟩
    intro a ha ha'
    rw [List.mem_singleton] at ha'
    subst ha'
    exact h ((dmem_iff_mem_keys d a).mpr ha)

theorem keysNodup_dpop {α : Type} (d : List (String × α)) (k : String)
    (hnd : keysNodup d) : keysNodup (dpop d k) := by
  unfold keysNodup
  rw [map_fst_dpop]
  exact List.Nodup.erase k hnd

theorem dmem_dpop_self_of_nodup {α : Type} (d : List (String × α))
    (k : String) (hnd : keysNodup d) : dmem (dpop d k) k = false := by
  rw [Bool.eq_false_iff]
  intro hc
  rw [dmem_iff_mem_keys, map_fst_dpop] at hc
  exact ((List.Nodup.mem_erase_iff hnd).mp hc).1 rfl

theorem dget_eq_of_not_dmem {α : Type} (d : List (String × α)) (k : String)
    (dflt : α) (h : dmem d k = false) : dget d k dflt = dflt := by
  induction d with
  | nil => rfl
  | cons kv rest ih =>
    obtain ⟨k', v'⟩ := kv
    simp only [dmem, Bool.or_eq_false_iff] at h
    have : ¬ k' = k := by simpa using h.1
    simp [dget, this, ih h.2]

theorem dmem_of_mem {α : Type} (d : List (String × α)) (k : String) (v : α)
    (h : (k, v) ∈ d) : dmem d k = true := by
  induction d with
  | nil => simp at h
  | cons kv rest ih =>
    obtain ⟨k', v'⟩ := kv
    rcases List.mem_cons.mp h with h2 | h2
    · injection h2 with hk hv
      simp [dmem, hk]
    · simp [dmem, ih h2]

theorem mem_of_dmem {α : Type} (d : List (String × α)) (k : String)
    (dflt : α) (h : dmem d k = true) : (k, dget d k dflt) ∈ d := by
  induction d with
  | nil => simp [dmem] at h
  | cons kv rest ih =>
    obtain ⟨k', v'⟩ := kv
    by_cases h2 : k' = k
    · subst h2
      simp [dget]
    · simp only [dmem, Bool.or_eq_true] at h
      rcases h with h | h

      · exact absurd (by simpa using h) h2
      · simp only [dget, if_neg h2]
        exact List.mem_cons_of_mem _ (ih h)

theorem dget_of_mem_nodup {α : Type} (d : List (String × α)) (k : String)
    (v : α) (dflt : α) (hnd : keysNodup d) (h : (k, v) ∈ d) :
    dget d k dflt = v := by
  induction d with
  | nil => simp at h
  | cons kv rest ih =>
    obtain ⟨k', v'⟩ := kv
    rcases List.mem_cons.mp h with h2 | h2
    · injection h2 with hk hv
      simp [dget, hk, hv]
    · have hne : ¬ k' = k := by
        intro he
        subst he
        exact (List.nodup_cons.mp hnd).1
          (List.mem_map.mpr ⟨(k', v), h2, rfl⟩)
      simp [dget, hne, ih (List.nodup_cons.mp hnd).2 h2]

theorem sumVals_nil : sumVals [] = 0 := rfl

theorem sumVals_cons (k : String) (v : Nat) (d : List (String × Nat)) :
    sumVals ((k, v) :: d) = v + sumVals d := by
  simp [sumVals]

theorem sumVals_dupdate_add (d : List (String × Nat)) (k : String)
    (u : Nat) :
    sumVals (dupdate d k (dget d k 0 + u)) = sumVals d + u := by
  induction d with
  | nil => simp [sumVals, dupdate, dget]
  | cons kv rest ih =>
    obtain ⟨k', v'⟩ := kv
    by_cases h : k' = k
    · simp only [dupdate, dget, if_pos h, sumVals_cons]
      omega
    · simp only [dupdate, dget, if_neg h, sumVals_cons, ih]
      omega

theorem sumVals_dpop_add (d : List (String × Nat)) (k : String)
    (h : dmem d k = true) :
    sumVals (dpop d k) + dget d k 0 = sumVals d := by
  induction d with
  | nil => simp [dmem] at h
  | cons kv rest ih =>
    obtain ⟨k', v'⟩ := kv
    by_cases h2 : k' = k
    · simp only [dpop, dget, if_pos h2, sumVals_cons]
      omega
    · simp only [dmem, Bool.or_eq_true, decide_eq_true_eq] at h
      rcases h with h | h
      · exact absurd h h2
      · simp only [dpop, dget, if_neg h2, sumVals_cons]
        have := ih h
        omega

/-! ### Tally lemmas -/

theorem dget_foldl_tallyStep (names : List String) :
    ∀ (d : List (String × Nat)) (k : String),
      dget (names.foldl tallyStep d) k 0 = dget d k 0 + names.count k := by
  induction names with
  | nil => intro d k; simp
  | cons nm names ih =>
    intro d k
    rw [List.foldl_cons, ih]
    by_cases h : nm = k
    · subst h
      rw [tallyStep, dget_dupdate_self, List.count_cons_self]
      omega
    · rw [tallyStep, dget_dupdate_ne _ _ _ _ _ (fun he => h he.symm),
        List.count_cons_of_ne (fun he => h (he.symm))]

theorem sumVals_foldl_tallyStep (names : List String) :
    ∀ d : List (String × Nat),
      sumVals (names.foldl tallyStep d) = sumVals d + names.length := by
  induction names with
  | nil => intro d; simp
  | cons nm names ih =>
    intro d
    rw [List.foldl_cons, ih, tallyStep, sumVals_dupdate_add]
    simp
    omega

theorem keysNodup_foldl_tallyStep (names : List String) :
    ∀ d : List (String × Nat), keysNodup d →
      keysNodup (names.foldl tallyStep d) := by
  induction names with
  | nil => intro d h; exact h
  | cons nm names ih =>
    intro d h
    rw [List.foldl_cons]
    exact ih _ (keysNodup_dupdate _ _ _ h)

theorem dmem_foldl_tallyStep (names : List String) :
    ∀ (d : List (String × Nat)) (k : String),
      dmem (names.foldl tallyStep d) k = (dmem d k || names.contains k) := by
  induction names with
  | nil => intro d k; simp
  | cons nm names ih =>
    intro d k
    rw [List.foldl_cons, ih]
    by_cases h : nm = k
    · subst h
      rw [tallyStep, dmem_dupdate_self]
      simp [List.contains_cons]
    · rw [tallyStep, dmem_dupdate_ne _ _ _ _ (fun he => h he.symm)]
      simp only [List.contains_cons]
      have hne : (k == nm) = false := by
        simp only [beq_eq_false_iff_ne, ne_eq]
        exact fun he => h he.symm
      rw [hne]
      simp [Bool.or_assoc]

theorem dget_tallyList (names : List String) (k : String) :
    dget (tallyList names) k 0 = names.count k := by
  rw [tallyList, dget_foldl_tallyStep]
  simp [dget]

theorem sumVals_tallyList (names : List String) :
    sumVals (tallyList names) = names.length := by
  rw [tallyList, sumVals_foldl_tallyStep]
  simp [sumVals]

theorem keysNodup_tallyList (names : List String) :
    keysNodup (tallyList names) := by
  exact keysNodup_foldl_tallyStep names [] (by simp [keysNodup])

theorem dmem_tallyList (names : List String) (k : String) :
    dmem (tallyList names) k = decide (0 < names.count k) := by
  rw [tallyList, dmem_foldl_tallyStep]
  have : dmem ([] : List (String × Nat)) k = false := rfl
  rw [this, Bool.false_or]
  by_cases h : k ∈ names
  · simp [h, List.count_pos_iff.mpr h]
  · simp [h, List.count_eq_zero_of_not_mem h]

theorem tallyLoop_eq (lineage : Nat → String × String × String)
    (l : List Nat) :
    tallyLoop lineage l =
      (tallyList (l.map (fun t => (lineage t).1)),
       tallyList (l.map (fun t => (lineage t).2.1)),
       tallyList (l.map (fun t => (lineage t).2.2))) := by
  unfold tallyLoop tallyList
  suffices h : ∀ (d1 d2 d3 : List (String × Nat)),
      l.foldl
        (fun acc t =>
          (tallyStep acc.1 (lineage t).1, tallyStep acc.2.1 (lineage t).2.1,
            tallyStep acc.2.2 (lineage t).2.2))
        (d1, d2, d3) =
      ((l.map (fun t => (lineage t).1)).foldl tallyStep d1,
       (l.map (fun t => (lineage t).2.1)).foldl tallyStep d2,
       (l.map (fun t => (lineage t).2.2)).foldl tallyStep d3) by
    exact h [] [] []
  induction l with
  | nil => intro d1 d2 d3; rfl
  | cons t l ih => intro d1 d2 d3; simp [ih]

/-! ### `processLoop` invariants -/

theorem processLoop_unk (thr n : Nat) (items : List (String × Nat)) :
    ∀ (ct : List (String × Nat)) (unk : Nat) (wt : List (String × ℚ)),
      (processLoop thr n items ct unk wt).2.1 =
        unk + sumVals (items.filter (fun kv => kv.2 < thr)) := by
  induction items with
  | nil => intro ct unk wt; simp [processLoop, sumVals]
  | cons kv items ih =>
    intro ct unk wt
    obtain ⟨k, v⟩ := kv
    by_cases h : v < thr
    · simp only [processLoop, if_pos h, ih, List.filter_cons,
        decide_eq_true_eq, h, if_true, sumVals_cons]
      omega
    · simp only [processLoop, if_neg h, ih, List.filter_cons,
        decide_eq_true_eq, h, if_false]

theorem processLoop_notin (thr n : Nat) (items : List (String × Nat)) :
    ∀ (ct : List (String × Nat)) (unk : Nat) (wt : List (String × ℚ))
      (k : String), k ∉ items.map Prod.fst →
      dmem (processLoop thr n items ct unk wt).1 k = dmem ct k ∧
      (∀ dflt : Nat,
        dget (processLoop thr n items ct unk wt).1 k dflt =
          dget ct k dflt) ∧
      dmem (processLoop thr n items ct unk wt).2.2 k = dmem wt k ∧
      (∀ dflt : ℚ,
        dget (processLoop thr n items ct unk wt).2.2 k dflt =
          dget wt k dflt) := by
  induction items with
  | nil => intro ct unk wt k _; exact ⟨rfl, fun _ => rfl, rfl, fun _ => rfl⟩
  | cons kv items ih =>
    intro ct unk wt k hk
    obtain ⟨k', v'⟩ := kv
    simp only [List.map_cons, List.mem_cons, not_or] at hk
    obtain ⟨hk1, hk2⟩ := hk
    by_cases h : v' < thr
    · simp only [processLoop, if_pos h]
      obtain ⟨h1, h2, h3, h4⟩ := ih (dpop ct k') (unk + v') wt k hk2
      exact ⟨h1.trans (dmem_dpop_ne ct k' k hk1),
        fun dflt => (h2 dflt).trans (dget_dpop_ne ct k' k dflt hk1), h3, h4⟩
    · simp only [processLoop, if_neg h]
      obtain ⟨h1, h2, h3, h4⟩ :=
        ih ct unk (dupdate wt k' ((n : ℚ) / (v' : ℚ))) k hk2
      exact ⟨h1, h2, h3.trans (dmem_dupdate_ne wt k' k _ hk1),
        fun dflt => (h4 dflt).trans (dget_dupdate_ne wt k' k _ dflt hk1)⟩

theorem processLoop_ct_false_mono (thr n : Nat)
    (items : List (String × Nat)) :
    ∀ (ct : List (String × Nat)) (unk : Nat) (wt : List (String × ℚ))
      (k : String), dmem ct k = false →
      dmem (processLoop thr n items ct unk wt).1 k = false := by
  induction items with
  | nil => intro ct unk wt k h; exact h
  | cons kv items ih =>
    intro ct unk wt k h
    obtain ⟨k', v'⟩ := kv
    by_cases h2 : v' < thr
    · simp only [processLoop, if_pos h2]
      exact ih _ _ _ k (dmem_dpop_of_not_mem ct k' k h)
    · simp only [processLoop, if_neg h2]
      exact ih _ _ _ k h

theorem keysNodup_tail {α : Type} (kv : String × α)
    (d : List (String × α)) (hnd : keysNodup (kv :: d)) : keysNodup d :=
  (List.nodup_cons.mp hnd).2

theorem key_notin_of_keysNodup {α : Type} (kv : String × α)
    (d : List (String × α)) (hnd : keysNodup (kv :: d)) :
    kv.1 ∉ d.map Prod.fst :=
  (List.nodup_cons.mp hnd).1

theorem processLoop_below_removed (thr n : Nat)
    (items : List (String × Nat)) :
    ∀ (ct : List (String × Nat)) (unk : Nat) (wt : List (String × ℚ))
      (k : String) (v : Nat),
      keysNodup items → keysNodup ct → (k, v) ∈ items → v < thr →
      dmem (processLoop thr n items ct unk wt).1 k = false := by
  induction items with
  | nil => intro ct unk wt k v _ _ hm _; simp at hm
  | cons kv items ih =>
    intro ct unk wt k v hnd hct hm hv
    obtain ⟨k', v'⟩ := kv
    rcases List.mem_cons.mp hm with h | h
    · injection h with hk hv'
      subst hk
      subst hv'
      simp only [processLoop, if_pos hv]
      exact processLoop_ct_false_mono thr n items _ _ _ k
        (dmem_dpop_self_of_nodup ct k hct)
    · have hk : k' ≠ k := by
        intro he
        exact key_notin_of_keysNodup _ _ hnd
          (he ▸ List.mem_map.mpr ⟨(k, v), h, rfl⟩)
      by_cases h2 : v' < thr
      · simp only [processLoop, if_pos h2]
        exact ih _ _ _ k v (keysNodup_tail _ _ hnd)
          (keysNodup_dpop ct k' hct) h hv
      · simp only [processLoop, if_neg h2]
        exact ih _ _ _ k v (keysNodup_tail _ _ hnd) hct h hv

theorem processLoop_retained_ct (thr n : Nat)
    (items : List (String × Nat)) :
    ∀ (ct : List (String × Nat)) (unk : Nat) (wt : List (String × ℚ))
      (k : String) (v : Nat) (dflt : Nat),
      keysNodup items → (k, v) ∈ items → ¬ v < thr →
      dget (processLoop thr n items ct unk wt).1 k dflt =
        dget ct k dflt := by
  induction items with
  | nil => intro ct unk wt k v dflt _ hm _; simp at hm
  | cons kv items ih =>
    intro ct unk wt k v dflt hnd hm hv
    obtain ⟨k', v'⟩ := kv
    rcases List.mem_cons.mp hm with h | h
    · injection h with hk hv'
      subst hk
      subst hv'
      simp only [processLoop, if_neg hv]
      exact ((processLoop_notin thr n items ct unk _ k
        (key_notin_of_keysNodup _ _ hnd)).2.1) dflt
    · have hk : k' ≠ k := by
        intro he
        exact key_notin_of_keysNodup _ _ hnd
          (he ▸ List.mem_map.mpr ⟨(k, v), h, rfl⟩)
      by_cases h2 : v' < thr
      · simp only [processLoop, if_pos h2]
        exact (ih _ _ _ k v dflt (keysNodup_tail _ _ hnd) h hv).trans
          (dget_dpop_ne ct k' k dflt (Ne.symm hk))
      · simp only [processLoop, if_neg h2]
        exact ih _ _ _ k v dflt (keysNodup_tail _ _ hnd) h hv

theorem processLoop_retained_wt (thr n : Nat)
    (items : List (String × Nat)) :
    ∀ (ct : List (String × Nat)) (unk : Nat) (wt : List (String × ℚ))
      (k : String) (v : Nat),
      keysNodup items → (k, v) ∈ items → ¬ v < thr →
      dget (processLoop thr n items ct unk wt).2.2 k 0 =
        (n : ℚ) / (v : ℚ) ∧
      dmem (processLoop thr n items ct unk wt).2.2 k = true := by
  induction items with
  | nil => intro ct unk wt k v _ hm _; simp at hm
  | cons kv items ih =>
    intro ct unk wt k v hnd hm hv
    obtain ⟨k', v'⟩ := kv
    rcases List.mem_cons.mp hm with h | h
    · injection h with hk hv'
      subst hk
      subst hv'
      simp only [processLoop, if_neg hv]
      have hni := processLoop_notin thr n items ct unk
        (dupdate wt k ((n : ℚ) / (v : ℚ))) k
        (key_notin_of_keysNodup _ _ hnd)
      exact ⟨(hni.2.2.2 0).trans (dget_dupdate_self wt k _ 0),
        hni.2.2.1.trans (dmem_dupdate_self wt k _)⟩
    · have hk : k' ≠ k := by
        intro he
        exact key_notin_of_keysNodup _ _ hnd
          (he ▸ List.mem_map.mpr ⟨(k, v), h, rfl⟩)
      by_cases h2 : v' < thr
      · simp only [processLoop, if_pos h2]
        exact ih _ _ _ k v (keysNodup_tail _ _ hnd) h hv
      · simp only [processLoop, if_neg h2]
        obtain ⟨ih1, ih2⟩ :=
          ih ct unk (dupdate wt k' ((n : ℚ) / (v' : ℚ))) k v
            (keysNodup_tail _ _ hnd) h hv
        exact ⟨ih1, ih2⟩

theorem processLoop_below_wt (thr n : Nat) (items : List (String × Nat)) :
    ∀ (ct : List (String × Nat)) (unk : Nat) (wt : List (String × ℚ))
      (k : String) (v : Nat),
      keysNodup items → (k, v) ∈ items → v < thr → dmem wt k = false →
      dmem (processLoop thr n items ct unk wt).2.2 k = false := by
  induction items with
  | nil => intro ct unk wt k v _ hm _ _; simp at hm
  | cons kv items ih =>
    intro ct unk wt k v hnd hm hv hwt
    obtain ⟨k', v'⟩ := kv
    rcases List.mem_cons.mp hm with h | h
    · injection h with hk hv'
      subst hk
      subst hv'
      simp only [processLoop, if_pos hv]
      exact ((processLoop_notin thr n items _ _ wt k
        (key_notin_of_keysNodup _ _ hnd)).2.2.1).trans hwt
    · have hk : k' ≠ k := by
        intro he
        exact key_notin_of_keysNodup _ _ hnd
          (he ▸ List.mem_map.mpr ⟨(k, v), h, rfl⟩)
      by_cases h2 : v' < thr
      · simp only [processLoop, if_pos h2]
        exact ih _ _ _ k v (keysNodup_tail _ _ hnd) h hv hwt
      · simp only [processLoop, if_neg h2]
        exact ih _ _ _ k v (keysNodup_tail _ _ hnd) h hv
          ((dmem_dupdate_ne wt k' k _ (Ne.symm hk)).trans hwt)

theorem processLoop_sum (thr n : Nat) (items : List (String × Nat)) :
    ∀ (ct : List (String × Nat)) (unk : Nat) (wt : List (String × ℚ)),
      keysNodup items →
      (∀ kv ∈ items, dmem ct kv.1 = true ∧ dget ct kv.1 0 = kv.2) →
      sumVals (processLoop thr n items ct unk wt).1 +
          (processLoop thr n items ct unk wt).2.1 =
        sumVals ct + unk := by
  induction items with
  | nil => intro ct unk wt _ _; simp [processLoop]
  | cons kv items ih =>
    intro ct unk wt hnd hpre
    obtain ⟨k, v⟩ := kv
    obtain ⟨hmem, hval⟩ := hpre (k, v) (List.mem_cons_self _ _)
    by_cases h : v < thr
    · simp only [processLoop, if_pos h]
      have hpre' : ∀ kv ∈ items, dmem (dpop ct k) kv.1 = true ∧
          dget (dpop ct k) kv.1 0 = kv.2 := by
        intro kv2 hkv2
        have hk : kv2.1 ≠ k := by
          intro he
          exact key_notin_of_keysNodup _ _ hnd
            (he ▸ List.mem_map.mpr ⟨kv2, hkv2, rfl⟩)
        obtain ⟨ha, hb⟩ := hpre kv2 (List.mem_cons_of_mem _ hkv2)
        exact ⟨(dmem_dpop_ne ct k kv2.1 hk).trans ha,
          (dget_dpop_ne ct k kv2.1 0 hk).trans hb⟩
      have hsum := sumVals_dpop_add ct k hmem
      have hval' : dget ct k 0 = v := hval
      have := ih (dpop ct k) (unk + v) wt (keysNodup_tail _ _ hnd) hpre'
      omega
    · simp only [processLoop, if_neg h]
      exact ih ct unk _ (keysNodup_tail _ _ hnd)
        (fun kv2 hkv2 => hpre kv2 (List.mem_cons_of_mem _ hkv2))

theorem processLoop_retained_dmem (thr n : Nat)
    (items : List (String × Nat)) :
    ∀ (ct : List (String × Nat)) (unk : Nat) (wt : List (String × ℚ))
      (k : String) (v : Nat),
      keysNodup items → (k, v) ∈ items → ¬ v < thr →
      dmem (processLoop thr n items ct unk wt).1 k = dmem ct k := by
  induction items with
  | nil => intro ct unk wt k v _ hm _; simp at hm
  | cons kv items ih =>
    intro ct unk wt k v hnd hm hv
    obtain ⟨k', v'⟩ := kv
    rcases List.mem_cons.mp hm with h | h
    · injection h with hk hv'
      subst hk
      subst hv'
      simp only [processLoop, if_neg hv]
      exact (processLoop_notin thr n items ct unk _ k
        (key_notin_of_keysNodup _ _ hnd)).1
    · have hk : k' ≠ k := by
        intro he
        exact key_notin_of_keysNodup _ _ hnd
          (he ▸ List.mem_map.mpr ⟨(k, v), h, rfl⟩)
      by_cases h2 : v' < thr
      · simp only [processLoop, if_pos h2]
        exact (ih _ _ _ k v (keysNodup_tail _ _ hnd) h hv).trans
          (dmem_dpop_ne ct k' k (Ne.symm hk))
      · simp only [processLoop, if_neg h2]
        exact ih _ _ _ k v (keysNodup_tail _ _ hnd) h hv

theorem not_mem_keys_of_dmem_false {α : Type} (d : List (String × α))
    (k : String) (h : dmem d k = false) : k ∉ d.map Prod.fst := by
  intro hc
  rw [(dmem_iff_mem_keys d k).mpr hc] at h
  exact Bool.noConfusion h

/-! ### `processRank` characterization -/

/-- Total tally mass of the classes strictly below the threshold. -/
def belowSum (d : List (String × Nat)) (thr : Nat) : Nat :=
  sumVals (d.filter (fun kv => kv.2 < thr))

theorem sumVals_processRank (thr n : Nat) (d : List (String × Nat))
    (hnd : keysNodup d) : sumVals (processRank thr n d).1 = sumVals d := by
  simp only [processRank]
  rw [Nat.add_comm ((processLoop thr n d d 0 []).2.1)
    (dget (processLoop thr n d d 0 []).1 "unknown" 0)]
  rw [sumVals_dupdate_add]
  have hpre : ∀ kv ∈ d, dmem d kv.1 = true ∧ dget d kv.1 0 = kv.2 := by
    intro kv hkv
    obtain ⟨a, b⟩ := kv
    exact ⟨dmem_of_mem d a b hkv, dget_of_mem_nodup d a b 0 hnd hkv⟩
  have := processLoop_sum thr n d d 0 [] hnd hpre
  omega

theorem processRank_absent (thr n : Nat) (d : List (String × Nat))
    (k : String) (hk : k ≠ "unknown") (hm : dmem d k = false) :
    dmem (processRank thr n d).1 k = false ∧
    dmem (processRank thr n d).2 k = false := by
  simp only [processRank]
  constructor
  · rw [dmem_dupdate_ne _ _ _ _ hk]
    exact processLoop_ct_false_mono thr n d d 0 [] k hm
  · rw [dmem_dupdate_ne _ _ _ _ hk]
    exact (processLoop_notin thr n d d 0 [] k
      (not_mem_keys_of_dmem_false d k hm)).2.2.1

theorem processRank_below (thr n : Nat) (d : List (String × Nat))
    (k : String) (v : Nat) (hnd : keysNodup d) (hk : k ≠ "unknown")
    (hm : (k, v) ∈ d) (hv : v < thr) :
    dmem (processRank thr n d).1 k = false ∧
    dmem (processRank thr n d).2 k = false := by
  simp only [processRank]
  constructor
  · rw [dmem_dupdate_ne _ _ _ _ hk]
    exact processLoop_below_removed thr n d d 0 [] k v hnd hnd hm hv
  · rw [dmem_dupdate_ne _ _ _ _ hk]
    exact processLoop_below_wt thr n d d 0 [] k v hnd hm hv rfl

theorem processRank_retained (thr n : Nat) (d : List (String × Nat))
    (k : String) (v : Nat) (hnd : keysNodup d) (hk : k ≠ "unknown")
    (hm : (k, v) ∈ d) (hv : ¬ v < thr) :
    dget (processRank thr n d).1 k 0 = v ∧
    dget (processRank thr n d).2 k 0 = (n : ℚ) / (v : ℚ) ∧
    dmem (processRank thr n d).1 k = true ∧
    dmem (processRank thr n d).2 k = true := by
  simp only [processRank]
  obtain ⟨hw1, hw2⟩ := processLoop_retained_wt thr n d d 0 [] k v hnd hm hv
  refine ⟨?_, ?_, ?_, ?_⟩
  · rw [dget_dupdate_ne _ _ _ _ _ hk]
    rw [processLoop_retained_ct thr n d d 0 [] k v 0 hnd hm hv]
    exact dget_of_mem_nodup d k v 0 hnd hm
  · rw [dget_dupdate_ne _ _ _ _ _ hk]
    exact hw1
  · rw [dmem_dupdate_ne _ _ _ _ hk]
    rw [processLoop_retained_dmem thr n d d 0 [] k v hnd hm hv]
    exact dmem_of_mem d k v hm
  · rw [dmem_dupdate_ne _ _ _ _ hk]
    exact hw2

theorem processRank_classes_unknown (thr n : Nat) (d : List (String × Nat))
    (hnd : keysNodup d) :
    dget (processRank thr n d).1 "unknown" 0 =
      belowSum d thr +
        (if dmem d "unknown" && decide (thr ≤ dget d "unknown" 0) then
          dget d "unknown" 0 else 0) := by
  simp only [processRank]
  rw [dget_dupdate_self]
  rw [processLoop_unk]
  cases hm : dmem d "unknown" with
  | false =>
    rw [(processLoop_notin thr n d d 0 [] "unknown"
      (not_mem_keys_of_dmem_false d "unknown" hm)).2.1 0]
    rw [dget_eq_of_not_dmem d "unknown" 0 hm]
    simp [belowSum]
  | true =>
    have hmem := mem_of_dmem d "unknown" 0 hm
    by_cases hv : dget d "unknown" 0 < thr
    · have hrm := processLoop_below_removed thr n d d 0 [] "unknown"
        (dget d "unknown" 0) hnd hnd hmem hv
      rw [dget_eq_of_not_dmem _ "unknown" 0 hrm]
      have : ¬ thr ≤ dget d "unknown" 0 := by omega
      simp [belowSum, this]
    · rw [processLoop_retained_ct thr n d d 0 [] "unknown"
        (dget d "unknown" 0) 0 hnd hmem hv]
      have : thr ≤ dget d "unknown" 0 := by omega
      simp [belowSum, this]

theorem processRank_unknown_mem (thr n : Nat) (d : List (String × Nat)) :
    dmem (processRank thr n d).1 "unknown" = true ∧
    dmem (processRank thr n d).2 "unknown" = true ∧
    dget (processRank thr n d).2 "unknown" 0 =
      (if dget (processRank thr n d).1 "unknown" 0 = 0 then 1
       else (n : ℚ) / ((dget (processRank thr n d).1 "unknown" 0 : Nat) :
        ℚ)) := by
  simp only [processRank]
  refine ⟨dmem_dupdate_self _ _ _, dmem_dupdate_self _ _ _, ?_⟩
  rw [dget_dupdate_self, dget_dupdate_self]
  by_cases h : (processLoop thr n d d 0 []).2.1 +
      dget (processLoop thr n d d 0 []).1 "unknown" 0 = 0
  · simp [h]
  · simp [h]

/-! ### Accessors for the per-rank results -/

/-- The rank-name list of one taxonomic level of the tally loop. -/
def rankNamesOf (lineage : Nat → String × String × String)
    (sl : List Nat) (i : Fin 3) : List String :=
  sl.map (fun t => rankProj i (lineage t))

/-- The `classes` dict of one rank of the result. -/
def classesOf (lineage : Nat → String × String × String) (sl : List Nat)
    (thr : Nat) (i : Fin 3) : List (String × Nat) :=
  dget (get_classes_and_weights_multi_tax lineage sl thr).1 (rankName i) []

/-- The `weight_classes` dict of one rank of the result. -/
def weightsOf (lineage : Nat → String × String × String) (sl : List Nat)
    (thr : Nat) (i : Fin 3) : List (String × ℚ) :=
  dget (get_classes_and_weights_multi_tax lineage sl thr).2 (rankName i) []

theorem classesOf_eq (lineage : Nat → String × String × String)
    (sl : List Nat) (thr : Nat) (i : Fin 3) :
    classesOf lineage sl thr i =
      (processRank thr sl.length (tallyList (rankNamesOf lineage sl i))).1 ∧
    weightsOf lineage sl thr i =
      (processRank thr sl.length
        (tallyList (rankNamesOf lineage sl i))).2 := by
  have ht := tallyLoop_eq lineage sl
  fin_cases i <;>
    simp only [classesOf, weightsOf, get_classes_and_weights_multi_tax,
      rankName, rankNamesOf, rankProj, ht] <;>
    exact ⟨rfl, rfl⟩

/-- A small concrete lineage lookup used to instantiate theorems: taxid 1
has the literal family name `unknown`, taxid 2 the family `F`. -/
def sampleLineage : Nat → String × String × String :=
  fun t => ("B", "M", if t = 1 then "unknown" else "F")

/-- C8: for every rank, the counts stored in the returned `classes` dict
(including the `unknown` bucket) sum to `len(species_list)` — also when a
class literally named `unknown` met the threshold, since line 169 folds
its tally into the bucket before the bucket overwrites the entry. -/
theorem get_classes_counts_sum (lineage : Nat → String × String × String)
    (sl : List Nat) (thr : Nat) (i : Fin 3) :
    sumVals (classesOf lineage sl thr i) = sl.length := by
  rw [(classesOf_eq lineage sl thr i).1]
  rw [sumVals_processRank _ _ _ (keysNodup_tallyList _)]
  rw [sumVals_tallyList]
  simp [rankNamesOf]

/-- C9: every rank's `classes` and `weight_classes` dicts contain the key
`unknown` (even when no class fell below the threshold), and the
`unknown` weight is `num_entries/bucket` when the bucket is non-empty and
is defined as 1 when the bucket count is 0, so the weight computation
never divides by zero. -/
theorem get_classes_unknown_safety
    (lineage : Nat → String × String × String) (sl : List Nat) (thr : Nat)
    (i : Fin 3) :
    dmem (classesOf lineage sl thr i) "unknown" = true ∧
    dmem (weightsOf lineage sl thr i) "unknown" = true ∧
    dget (weightsOf lineage sl thr i) "unknown" 0 =
      (if dget (classesOf lineage sl thr i) "unknown" 0 = 0 then 1
       else (sl.length : ℚ) /
        ((dget (classesOf lineage sl thr i) "unknown" 0 : Nat) : ℚ)) := by
  obtain ⟨h1, h2⟩ := classesOf_eq lineage sl thr i
  rw [h1, h2]
  exact processRank_unknown_mem thr sl.length _

/-- C4 counterexample: with `sampleLineage`, `species_list = [1, 1, 2]`
and `unknown_thr = 2`, the family rank tallies the literal class name
`unknown` twice — it meets the threshold, so per the claim it is retained
and must receive weight `3/2`; but its weight in the result is `1`
(namely `3/3`, since line 169 folds its tally into the bucket), and the
`unknown` entry of `classes` holds 3 even though the below-threshold
classes only account for 1. -/
theorem get_classes_weights_counterexample :
    dget (tallyList (rankNamesOf sampleLineage [1, 1, 2] 2)) "unknown" 0 =
      2 ∧
    (2 : Nat) ≤ 2 ∧
    belowSum (tallyList (rankNamesOf sampleLineage [1, 1, 2] 2)) 2 = 1 ∧
    dget (classesOf sampleLineage [1, 1, 2] 2 2) "unknown" 0 = 3 ∧
    dget (weightsOf sampleLineage [1, 1, 2] 2 2) "unknown" 0 = 1 ∧
    (1 : ℚ) ≠ (3 : ℚ) / 2 := by
  refine ⟨by decide, by decide, by decide, by decide, ?_, by norm_num⟩
  have h : dget (weightsOf sampleLineage [1, 1, 2] 2 2) "unknown" 0 =
      ((3 : Nat) : ℚ) / ((3 : Nat) : ℚ) := rfl
  rw [h]
  norm_num

/-- C4 amended: per rank, the single pass tallies one count per taxid
(the tally of class `k` is the number of taxids whose rank name is `k`);
every class strictly below `unknown_thr` is removed from `classes` and
from the weights; every retained class *not literally named `unknown`*
keeps its count and receives the inverse-frequency weight
`len(species_list)/count`; the `unknown` bucket holds the total
below-threshold mass plus — deviating from the original claim — also the
tally of a retained class literally named `unknown`, whose
inverse-frequency weight is consequently overwritten by the bucket
weight. -/
theorem get_classes_weights_rank_spec
    (lineage : Nat → String × String × String) (sl : List Nat) (thr : Nat)
    (i : Fin 3) (k : String) (hk : k ≠ "unknown") :
    dget (tallyList (rankNamesOf lineage sl i)) k 0 =
      (rankNamesOf lineage sl i).count k ∧
    dmem (classesOf lineage sl thr i) k =
      (decide (0 < (rankNamesOf lineage sl i).count k) &&
        decide (thr ≤ (rankNamesOf lineage sl i).count k)) ∧
    dget (classesOf lineage sl thr i) k 0 =
      (if 0 < (rankNamesOf lineage sl i).count k ∧
          thr ≤ (rankNamesOf lineage sl i).count k then
        (rankNamesOf lineage sl i).count k
       else 0) ∧
    dmem (weightsOf lineage sl thr i) k =
      (decide (0 < (rankNamesOf lineage sl i).count k) &&
        decide (thr ≤ (rankNamesOf lineage sl i).count k)) ∧
    dget (weightsOf lineage sl thr i) k 0 =
      (if 0 < (rankNamesOf lineage sl i).count k ∧
          thr ≤ (rankNamesOf lineage sl i).count k then
        (sl.length : ℚ) / (((rankNamesOf lineage sl i).count k : Nat) : ℚ)
       else 0) ∧
    dget (classesOf lineage sl thr i) "unknown" 0 =
      belowSum (tallyList (rankNamesOf lineage sl i)) thr +
        (if dmem (tallyList (rankNamesOf lineage sl i)) "unknown" &&
            decide (thr ≤
              dget (tallyList (rankNamesOf lineage sl i)) "unknown" 0) then
          dget (tallyList (rankNamesOf lineage sl i)) "unknown" 0
         else 0) := by
  obtain ⟨hc, hw⟩ := classesOf_eq lineage sl thr i
  have hnd := keysNodup_tallyList (rankNamesOf lineage sl i)
  refine ⟨dget_tallyList _ k, ?_⟩
  rw [hc, hw]
  refine ⟨?_, ?_, ?_, ?_,
    processRank_classes_unknown thr sl.length _ hnd⟩ <;>
  · by_cases h1 : 0 < (rankNamesOf lineage sl i).count k
    · by_cases h2 : thr ≤ (rankNamesOf lineage sl i).count k
      · have hdm : dmem (tallyList (rankNamesOf lineage sl i)) k = true := by
          rw [dmem_tallyList]
          simp [h1]
        have hmem : (k, (rankNamesOf lineage sl i).count k) ∈
            tallyList (rankNamesOf lineage sl i) := by
          have := mem_of_dmem _ k 0 hdm
          rwa [dget_tallyList] at this
        obtain ⟨r1, r2, r3, r4⟩ := processRank_retained thr sl.length _ k
          ((rankNamesOf lineage sl i).count k) hnd hk hmem (by omega)
        simp [r1, r2, r3, r4, h1, h2]
      · have hdm : dmem (tallyList (rankNamesOf lineage sl i)) k = true := by
          rw [dmem_tallyList]
          simp [h1]
        have hmem : (k, (rankNamesOf lineage sl i).count k) ∈
            tallyList (rankNamesOf lineage sl i) := by
          have := mem_of_dmem _ k 0 hdm
          rwa [dget_tallyList] at this
        obtain ⟨b1, b2⟩ := processRank_below thr sl.length _ k
          ((rankNamesOf lineage sl i).count k) hnd hk hmem (by omega)
        simp [b1, b2, dget_eq_of_not_dmem _ k _ b1,
          dget_eq_of_not_dmem _ k _ b2, h1, h2]
    · have hdm : dmem (tallyList (rankNamesOf lineage sl i)) k = false := by
        rw [dmem_tallyList]
        simp only [decide_eq_false_iff_not]
        exact h1
      obtain ⟨a1, a2⟩ := processRank_absent thr sl.length _ k hk hdm
      simp [a1, a2, dget_eq_of_not_dmem _ k _ a1,
        dget_eq_of_not_dmem _ k _ a2, h1]

theorem get_classes_weights_rank_spec_witness :
    (("F" : String) ≠ "unknown") ∧
    (dget (tallyList (rankNamesOf sampleLineage [1, 1, 2] 2)) "F" 0 =
      (rankNamesOf sampleLineage [1, 1, 2] 2).count "F" ∧
    dmem (classesOf sampleLineage [1, 1, 2] 2 2) "F" =
      (decide (0 < (rankNamesOf sampleLineage [1, 1, 2] 2).count "F") &&
        decide (2 ≤ (rankNamesOf sampleLineage [1, 1, 2] 2).count "F")) ∧
    dget (classesOf sampleLineage [1, 1, 2] 2 2) "F" 0 =
      (if 0 < (rankNamesOf sampleLineage [1, 1, 2] 2).count "F" ∧
          2 ≤ (rankNamesOf sampleLineage [1, 1, 2] 2).count "F" then
        (rankNamesOf sampleLineage [1, 1, 2] 2).count "F"
       else 0) ∧
    dmem (weightsOf sampleLineage [1, 1, 2] 2 2) "F" =
      (decide (0 < (rankNamesOf sampleLineage [1, 1, 2] 2).count "F") &&
        decide (2 ≤ (rankNamesOf sampleLineage [1, 1, 2] 2).count "F")) ∧
    dget (weightsOf sampleLineage [1, 1, 2] 2 2) "F" 0 =
      (if 0 < (rankNamesOf sampleLineage [1, 1, 2] 2).count "F" ∧
          2 ≤ (rankNamesOf sampleLineage [1, 1, 2] 2).count "F" then
        (([1, 1, 2] : List Nat).length : ℚ) /
          (((rankNamesOf sampleLineage [1, 1, 2] 2).count "F" : Nat) : ℚ)
       else 0) ∧
    dget (classesOf sampleLineage [1, 1, 2] 2 2) "unknown" 0 =
      belowSum (tallyList (rankNamesOf sampleLineage [1, 1, 2] 2)) 2 +
        (if dmem (tallyList (rankNamesOf sampleLineage [1, 1, 2] 2))
              "unknown" &&
            decide (2 ≤
              dget (tallyList (rankNamesOf sampleLineage [1, 1, 2] 2))
                "unknown" 0) then
          dget (tallyList (rankNamesOf sampleLineage [1, 1, 2] 2))
            "unknown" 0
         else 0)) :=
  ⟨by decide,
    get_classes_weights_rank_spec sampleLineage [1, 1, 2] 2 2 "F"
      (by decide)⟩

end Bertax
